import Mathlib

/-!
# Verification of the smtp-relay core against its specification

Shallow embedding of the repository's pure protocol logic:

* `crypto.rs` — authentication-token generation and verification
  (`AuthToken::generate`, `AuthToken::verify`), over an abstract HMAC;
* `proto/frames.rs` — the binary frame codec (`Frame::serialize`,
  `FrameCodec::decode`);
* `server.rs` — the pure command-dispatch step of `handle_client`
  (plain TCP) and `handle_tls_session`, and the inline whitelist check;
* `config.rs` — `UsersConfig::is_ip_whitelisted`.

Byte strings are modelled as `List Nat` with values below 256 where it
matters; machine integers are `Nat` with explicit `% 2 ^ w` at the points
the source casts or truncates.
-/

/-- Bytes of an ASCII/Unicode string literal (codepoints; equals the UTF-8
bytes for the ASCII literals used below). -/
def strBytes (s : String) : List Nat :=
  s.data.map Char.toNat

/-! ## Splitting a byte string on a separator

Models Rust's `str::split(sep)`: `n` separators yield `n + 1` parts,
empty parts included. -/

/-- Split a byte list on a separator byte, keeping empty parts
(the semantics of Rust's `str::split(':')` used in `AuthToken::verify`). -/
def splitOnByte (sep : Nat) : List Nat → List (List Nat)
  | [] => [[]]
  | b :: rest =>
    if b = sep then [] :: splitOnByte sep rest
    else
      match splitOnByte sep rest with
      | part :: parts => (b :: part) :: parts
      | [] => [[b]]

theorem splitOnByte_ne_nil (sep : Nat) (l : List Nat) :
    splitOnByte sep l ≠ [] := by
  induction l with
  | nil => simp [splitOnByte]
  | cons b rest ih =>
    simp only [splitOnByte]
    split
    · simp
    · cases h : splitOnByte sep rest with
      | nil => simp
      | cons part parts => simp

theorem splitOnByte_length (sep : Nat) (l : List Nat) :
    (splitOnByte sep l).length = l.count sep + 1 := by
  induction l with
  | nil => simp [splitOnByte]
  | cons b rest ih =>
    simp only [splitOnByte]
    split
    · rename_i hb
      subst hb
      simp [List.count_cons, ih]
    · rename_i hb
      cases h : splitOnByte sep rest with
      | nil => exact absurd h (splitOnByte_ne_nil sep rest)
      | cons part parts =>
        rw [h] at ih
        simp only [List.length_cons] at ih ⊢
        have hcnt : rest.count sep = List.count sep (b :: rest) := by
          simp [List.count_cons, Ne.symm hb]
        omega

/-- A byte list free of the separator is a single part. -/
theorem splitOnByte_of_not_mem (sep : Nat) (l : List Nat) (h : sep ∉ l) :
    splitOnByte sep l = [l] := by
  induction l with
  | nil => simp [splitOnByte]
  | cons b rest ih =>
    simp only [List.mem_cons, not_or] at h
    simp only [splitOnByte]
    rw [if_neg (fun hb => h.1 hb.symm), ih h.2]

/-- Splitting `u ++ sep :: v` with `sep ∉ u` peels off `u` as the first part. -/
theorem splitOnByte_append (sep : Nat) (u v : List Nat) (h : sep ∉ u) :
    splitOnByte sep (u ++ sep :: v) = u :: splitOnByte sep v := by
  induction u with
  | nil => simp [splitOnByte]
  | cons b rest ih =>
    simp only [List.mem_cons, not_or] at h
    simp only [List.cons_append, splitOnByte, List.append_eq]
    rw [if_neg (fun hb => h.1 hb.symm), ih h.2]

/-! ## Decimal rendering and parsing of `u64` timestamps

`AuthToken::generate` renders the timestamp with `format!` (decimal);
`AuthToken::verify` parses it back with `str::parse::<u64>()`. -/

/-- ASCII digits of `n`, most significant first, via explicit fuel
(so the definition is structurally recursive and kernel-evaluable).
Correct whenever `n ≤ fuel`. -/
def natDecimalAux : Nat → Nat → List Nat
  | _, 0 => []
  | 0, _ + 1 => []
  | fuel + 1, n + 1 => natDecimalAux fuel ((n + 1) / 10) ++ [48 + (n + 1) % 10]

/-- Decimal ASCII rendering of a natural number, as produced by Rust's
`format!("{n}")`. -/
def natDecimal (n : Nat) : List Nat :=
  if n = 0 then [48] else natDecimalAux n n

theorem natDecimalAux_zero (fuel : Nat) : natDecimalAux fuel 0 = [] := by
  cases fuel <;> rfl

theorem natDecimalAux_fuel (fuel fuel' n : Nat) (h : n ≤ fuel) (h' : n ≤ fuel') :
    natDecimalAux fuel n = natDecimalAux fuel' n := by
  induction n using Nat.strong_induction_on generalizing fuel fuel' with
  | _ n ih =>
    cases n with
    | zero => rw [natDecimalAux_zero, natDecimalAux_zero]
    | succ m =>
      obtain ⟨f, rfl⟩ : ∃ f, fuel = f + 1 := ⟨fuel - 1, by omega⟩
      obtain ⟨f', rfl⟩ : ∃ g, fuel' = g + 1 := ⟨fuel' - 1, by omega⟩
      have hd : (m + 1) / 10 < m + 1 := Nat.div_lt_self (Nat.succ_pos m) (by omega)
      simp only [natDecimalAux]
      rw [ih ((m + 1) / 10) (by omega) f f' (by omega) (by omega)]

/-- Digit bytes of `natDecimalAux` are ASCII digits. -/
theorem natDecimalAux_digits (fuel n : Nat) :
    ∀ c ∈ natDecimalAux fuel n, 48 ≤ c ∧ c ≤ 57 := by
  induction n using Nat.strong_induction_on generalizing fuel with
  | _ n ih =>
    cases n with
    | zero => rw [natDecimalAux_zero]; simp
    | succ m =>
      cases fuel with
      | zero => simp [natDecimalAux]
      | succ f =>
        simp only [natDecimalAux]
        intro c hc
        have hd : (m + 1) / 10 < m + 1 := Nat.div_lt_self (Nat.succ_pos m) (by omega)
        rcases List.mem_append.mp hc with h | h
        · exact ih ((m + 1) / 10) hd f c h
        · simp only [List.mem_singleton] at h
          subst h
          have := Nat.mod_lt (m + 1) (show 0 < 10 by omega)
          omega

theorem natDecimal_digits (n : Nat) :
    ∀ c ∈ natDecimal n, 48 ≤ c ∧ c ≤ 57 := by
  unfold natDecimal
  split
  · simp
  · exact natDecimalAux_digits n n

theorem natDecimal_ne_nil (n : Nat) : natDecimal n ≠ [] := by
  unfold natDecimal
  split
  · simp
  · rename_i h
    match n, h with
    | n + 1, _ =>
      simp [natDecimalAux]

/-- The separator byte 58 = ':' never occurs in a decimal rendering. -/
theorem colon_not_mem_natDecimal (n : Nat) : 58 ∉ natDecimal n := by
  intro h
  have := natDecimal_digits n 58 h
  omega

/-- Rust-style digit test (`char::is_ascii_digit` on bytes). -/
def isDigitByte (c : Nat) : Bool := 48 ≤ c && c ≤ 57

/-- Strip the one optional leading `+` sign that Rust's integer
`from_str` accepts. -/
def stripPlus : List Nat → List Nat
  | 43 :: rest => rest
  | s => s

/-- Models `str::parse::<u64>()`: an optional leading `+`, then at least one
ASCII digit, value below `2 ^ 64` (overflow is a parse error). -/
def parseU64 (s : List Nat) : Option Nat :=
  let t := stripPlus s
  if t ≠ [] ∧ t.all isDigitByte then
    let v := t.foldl (fun acc c => acc * 10 + (c - 48)) 0
    if v < 2 ^ 64 then some v else none
  else none

theorem stripPlus_of_digits (l : List Nat) (h : ∀ c ∈ l, 48 ≤ c ∧ c ≤ 57) :
    stripPlus l = l := by
  rw [stripPlus.eq_def]
  split
  · rename_i rest
    have := h 43 (by simp)
    omega
  · rfl

theorem natDecimalAux_foldl (fuel n acc : Nat) (h : n ≤ fuel) :
    (natDecimalAux fuel n).foldl (fun a c => a * 10 + (c - 48)) acc =
      acc * 10 ^ (natDecimalAux fuel n).length + n := by
  induction n using Nat.strong_induction_on generalizing fuel acc with
  | _ n ih =>
    cases n with
    | zero => rw [natDecimalAux_zero]; simp
    | succ m =>
      obtain ⟨f, rfl⟩ : ∃ f, fuel = f + 1 := ⟨fuel - 1, by omega⟩
      have hd : (m + 1) / 10 < m + 1 := Nat.div_lt_self (Nat.succ_pos m) (by omega)
      simp only [natDecimalAux, List.foldl_append, List.length_append,
        List.foldl_cons, List.foldl_nil, List.length_cons, List.length_nil]
      rw [ih ((m + 1) / 10) hd f acc (by omega)]
      have hmod : (m + 1) % 10 < 10 := Nat.mod_lt _ (by omega)
      have hdm := Nat.div_add_mod (m + 1) 10
      have h48 : 48 + (m + 1) % 10 - 48 = (m + 1) % 10 := by omega
      rw [h48, pow_succ]
      ring_nf
      omega

/-- `parseU64` inverts `natDecimal` for values in `u64` range. -/
theorem parseU64_natDecimal (n : Nat) (h : n < 2 ^ 64) :
    parseU64 (natDecimal n) = some n := by
  unfold parseU64
  have hne : natDecimal n ≠ [] := natDecimal_ne_nil n
  have hdig : (natDecimal n).all isDigitByte = true := by
    rw [List.all_eq_true]
    intro c hc
    have := natDecimal_digits n c hc
    simp only [isDigitByte, Bool.and_eq_true, decide_eq_true_eq]
    omega
  rw [stripPlus_of_digits _ (natDecimal_digits n)]
  simp only [hne, hdig, ne_eq, not_false_eq_true, and_self, if_true]
  have hfold : (natDecimal n).foldl (fun a c => a * 10 + (c - 48)) 0 = n := by
    unfold natDecimal
    split
    · rename_i h0; subst h0; rfl
    · rw [natDecimalAux_foldl n n 0 (le_refl n)]
      simp
  rw [hfold, if_pos h]

/-! ## Base64, standard alphabet with padding

Models the `base64` crate's `STANDARD` engine used by `crypto.rs`:
canonical padded encoding, strict decoding (bad characters, misplaced
padding, non-canonical trailing bits and bad lengths are all errors). -/

/-- The standard base64 alphabet as byte values. -/
def b64Alphabet : List Nat :=
  (List.range 26).map (· + 65) ++ (List.range 26).map (· + 97) ++
    (List.range 10).map (· + 48) ++ [43, 47]

/-- Byte of the alphabet character for a sextet value (`n < 64`). -/
def sextetChar (n : Nat) : Nat := b64Alphabet.getD n 65

/-- Sextet value of an alphabet byte, `none` for a non-alphabet byte. -/
def sextetVal (c : Nat) : Option Nat :=
  let i := b64Alphabet.indexOf c
  if i < 64 then some i else none

/-- Encode 3-byte groups into 4 alphabet characters, padding the tail. -/
def base64EncodeChunks : List Nat → List Nat
  | a :: b :: c :: rest =>
    sextetChar (a / 4) :: sextetChar (a % 4 * 16 + b / 16) ::
      sextetChar (b % 16 * 4 + c / 64) :: sextetChar (c % 64) ::
      base64EncodeChunks rest
  | [a, b] => [sextetChar (a / 4), sextetChar (a % 4 * 16 + b / 16),
      sextetChar (b % 16 * 4), 61]
  | [a] => [sextetChar (a / 4), sextetChar (a % 4 * 16), 61, 61]
  | [] => []

/-- `BASE64.encode`: the `% 256` reflects that the Rust input is `&[u8]`. -/
def base64Encode (bs : List Nat) : List Nat :=
  base64EncodeChunks (bs.map (· % 256))

/-- `BASE64.decode` on 4-character groups: strict padded decoding. -/
def base64DecodeChunks : List Nat → Option (List Nat)
  | [] => some []
  | c1 :: c2 :: c3 :: c4 :: rest =>
    if c4 = 61 then
      if rest = [] then
        if c3 = 61 then
          match sextetVal c1, sextetVal c2 with
          | some a, some b => if b % 16 = 0 then some [a * 4 + b / 16] else none
          | _, _ => none
        else
          match sextetVal c1, sextetVal c2, sextetVal c3 with
          | some a, some b, some c =>
            if c % 4 = 0 then some [a * 4 + b / 16, b % 16 * 16 + c / 4] else none
          | _, _, _ => none
      else none
    else
      match sextetVal c1, sextetVal c2, sextetVal c3, sextetVal c4 with
      | some a, some b, some c, some d =>
        match base64DecodeChunks rest with
        | some bytes => some ((a * 4 + b / 16) :: (b % 16 * 16 + c / 4) ::
            (c % 4 * 64 + d) :: bytes)
        | none => none
      | _, _, _, _ => none
  | _ => none

/-- `BASE64.decode`. -/
def base64Decode (cs : List Nat) : Option (List Nat) :=
  base64DecodeChunks cs

theorem b64Alphabet_facts : ∀ c ∈ b64Alphabet, c < 128 ∧ c ≠ 58 ∧ c ≠ 61 := by
  decide

theorem sextetChar_mem (n : Nat) : sextetChar n ∈ b64Alphabet := by
  unfold sextetChar
  rcases Nat.lt_or_ge n b64Alphabet.length with h | h
  · rw [List.getD_eq_getElem b64Alphabet 65 h]
    exact List.getElem_mem h
  · rw [List.getD_eq_default b64Alphabet 65 h]
    decide

theorem sextetChar_ne_61 (n : Nat) : sextetChar n ≠ 61 :=
  (b64Alphabet_facts _ (sextetChar_mem n)).2.2

theorem sextetVal_sextetChar (n : Nat) (h : n < 64) :
    sextetVal (sextetChar n) = some n := by
  have key : ∀ m : Fin 64, sextetVal (sextetChar m.val) = some m.val := by decide
  exact key ⟨n, h⟩

theorem base64EncodeChunks_mem (bs : List Nat) :
    ∀ c ∈ base64EncodeChunks bs, c ∈ b64Alphabet ∨ c = 61 := by
  induction bs using base64EncodeChunks.induct with
  | case1 a b c rest ih =>
    simp only [base64EncodeChunks, List.mem_cons]
    rintro x (rfl | rfl | rfl | rfl | hx)
    · exact Or.inl (sextetChar_mem _)
    · exact Or.inl (sextetChar_mem _)
    · exact Or.inl (sextetChar_mem _)
    · exact Or.inl (sextetChar_mem _)
    · exact ih x hx
  | case2 a b =>
    simp only [base64EncodeChunks, List.mem_cons]
    rintro x (rfl | rfl | rfl | rfl | hx)
    · exact Or.inl (sextetChar_mem _)
    · exact Or.inl (sextetChar_mem _)
    · exact Or.inl (sextetChar_mem _)
    · exact Or.inr rfl
    · simp at hx
  | case3 a =>
    simp only [base64EncodeChunks, List.mem_cons]
    rintro x (rfl | rfl | rfl | rfl | hx)
    · exact Or.inl (sextetChar_mem _)
    · exact Or.inl (sextetChar_mem _)
    · exact Or.inr rfl
    · exact Or.inr rfl
    · simp at hx
  | case4 => simp [base64EncodeChunks]

theorem base64Encode_lt_128 (bs : List Nat) : ∀ c ∈ base64Encode bs, c < 128 := by
  intro c hc
  rcases base64EncodeChunks_mem _ c hc with h | h
  · exact (b64Alphabet_facts c h).1
  · omega

theorem colon_not_mem_base64Encode (bs : List Nat) : 58 ∉ base64Encode bs := by
  intro hc
  rcases base64EncodeChunks_mem _ 58 hc with h | h
  · exact (b64Alphabet_facts 58 h).2.1 rfl
  · omega

theorem base64DecodeChunks_encodeChunks (bs : List Nat) (h : ∀ b ∈ bs, b < 256) :
    base64DecodeChunks (base64EncodeChunks bs) = some bs := by
  induction bs using base64EncodeChunks.induct with
  | case1 a b c rest ih =>
    have ha : a < 256 := h a (by simp)
    have hb : b < 256 := h b (by simp)
    have hc : c < 256 := h c (by simp)
    simp only [base64EncodeChunks, base64DecodeChunks]
    rw [if_neg (sextetChar_ne_61 _)]
    rw [sextetVal_sextetChar (a / 4) (by omega),
      sextetVal_sextetChar (a % 4 * 16 + b / 16) (by omega),
      sextetVal_sextetChar (b % 16 * 4 + c / 64) (by omega),
      sextetVal_sextetChar (c % 64) (by omega)]
    rw [ih (fun x hx => h x (by simp [hx]))]
    simp only [Option.some.injEq, List.cons.injEq]
    refine ⟨by omega, by omega, by omega, trivial⟩
  | case2 a b =>
    have ha : a < 256 := h a (by simp)
    have hb : b < 256 := h b (by simp)
    simp only [base64EncodeChunks, base64DecodeChunks, if_true]
    rw [if_neg (sextetChar_ne_61 _)]
    rw [sextetVal_sextetChar (a / 4) (by omega),
      sextetVal_sextetChar (a % 4 * 16 + b / 16) (by omega),
      sextetVal_sextetChar (b % 16 * 4) (by omega)]
    simp only [Nat.mul_mod_left, Option.some.injEq, List.cons.injEq, and_true,
      if_true, reduceIte]
    omega
  | case3 a =>
    have ha : a < 256 := h a (by simp)
    simp only [base64EncodeChunks, base64DecodeChunks, if_true]
    rw [sextetVal_sextetChar (a / 4) (by omega),
      sextetVal_sextetChar (a % 4 * 16) (by omega)]
    simp only [Nat.mul_mod_left, Option.some.injEq, List.cons.injEq, and_true,
      if_true, reduceIte]
    omega
  | case4 => rfl

theorem map_mod_256_of_lt (bs : List Nat) (h : ∀ b ∈ bs, b < 256) :
    bs.map (· % 256) = bs := by
  induction bs with
  | nil => rfl
  | cons b rest ih =>
    simp only [List.map_cons, List.cons.injEq]
    exact ⟨Nat.mod_eq_of_lt (h b (by simp)),
      ih (fun x hx => h x (by simp [hx]))⟩

/-- Decoding an encoding recovers the input bytes. -/
theorem base64Decode_encode (bs : List Nat) (h : ∀ b ∈ bs, b < 256) :
    base64Decode (base64Encode bs) = some bs := by
  unfold base64Decode base64Encode
  rw [map_mod_256_of_lt bs h]
  exact base64DecodeChunks_encodeChunks bs h


/-! ## UTF-8 validity

`AuthToken::verify` runs `String::from_utf8` on the decoded token and
rejects invalid UTF-8. This validator mirrors the Rust standard library's
byte-level UTF-8 validation table. -/

/-- A UTF-8 continuation byte: `0x80 ..= 0xBF`. -/
def isCont (b : Nat) : Bool := 128 ≤ b && b ≤ 191

/-- Classification of a UTF-8 lead byte by sequence length. -/
inductive Utf8Lead where
  | ascii
  | two
  | three
  | four
  | bad
deriving DecidableEq

/-- Classify a lead byte: ASCII, 2-byte lead `C2..=DF`, 3-byte lead
`E0..=EF`, 4-byte lead `F0..=F4`, anything else invalid. -/
def classifyLead (b : Nat) : Utf8Lead :=
  if b < 128 then .ascii
  else if 194 ≤ b && b ≤ 223 then .two
  else if 224 ≤ b && b ≤ 239 then .three
  else if 240 ≤ b && b ≤ 244 then .four
  else .bad

/-- Allowed range of the second byte given the lead byte
(the `E0`/`ED`/`F0`/`F4` special rows of the Rust validation table). -/
def utf8Snd (b b2 : Nat) : Bool :=
  if b = 224 then 160 ≤ b2 && b2 ≤ 191
  else if b = 237 then 128 ≤ b2 && b2 ≤ 159
  else if b = 240 then 144 ≤ b2 && b2 ≤ 191
  else if b = 244 then 128 ≤ b2 && b2 ≤ 143
  else isCont b2

/-- Byte-level UTF-8 validity, as checked by `String::from_utf8`. -/
def validUtf8 : List Nat → Bool
  | [] => true
  | b :: rest =>
    match classifyLead b, rest with
    | .ascii, r => validUtf8 r
    | .two, b2 :: r => utf8Snd b b2 && validUtf8 r
    | .three, b2 :: b3 :: r => utf8Snd b b2 && (isCont b3 && validUtf8 r)
    | .four, b2 :: b3 :: b4 :: r =>
      utf8Snd b b2 && (isCont b3 && (isCont b4 && validUtf8 r))
    | _, _ => false

theorem classifyLead_ascii (b : Nat) (h : b < 128) : classifyLead b = .ascii := by
  simp [classifyLead, h]

/-- ASCII-only byte lists are valid UTF-8. -/
theorem validUtf8_ascii (l : List Nat) (h : ∀ b ∈ l, b < 128) :
    validUtf8 l = true := by
  induction l with
  | nil => rfl
  | cons b rest ih =>
    have hb : b < 128 := h b (by simp)
    rw [validUtf8.eq_def]
    simp only [classifyLead_ascii b hb]
    exact ih (fun x hx => h x (by simp [hx]))

theorem classifyLead_bound_ascii (b : Nat) (h : classifyLead b = .ascii) :
    b < 128 := by
  simp only [classifyLead] at h
  split_ifs at h with h1 h2 h3 h4 <;> simp_all

theorem classifyLead_bound_two (b : Nat) (h : classifyLead b = .two) :
    194 ≤ b ∧ b ≤ 223 := by
  simp only [classifyLead] at h
  split_ifs at h with h1 h2 h3 h4 <;> simp_all

theorem classifyLead_bound_three (b : Nat) (h : classifyLead b = .three) :
    224 ≤ b ∧ b ≤ 239 := by
  simp only [classifyLead] at h
  split_ifs at h with h1 h2 h3 h4 <;> simp_all

theorem classifyLead_bound_four (b : Nat) (h : classifyLead b = .four) :
    240 ≤ b ∧ b ≤ 244 := by
  simp only [classifyLead] at h
  split_ifs at h with h1 h2 h3 h4 <;> simp_all

theorem utf8Snd_range (b b2 : Nat) (h : utf8Snd b b2 = true) :
    128 ≤ b2 ∧ b2 ≤ 191 := by
  simp only [utf8Snd, isCont] at h
  split_ifs at h <;> simp_all <;> omega

theorem isCont_range (b : Nat) (h : isCont b = true) : 128 ≤ b ∧ b ≤ 191 := by
  simp only [isCont] at h
  simp_all

/-- Concatenating valid UTF-8 byte lists yields valid UTF-8. -/
theorem validUtf8_append (a l : List Nat) (ha : validUtf8 a = true)
    (hl : validUtf8 l = true) : validUtf8 (a ++ l) = true := by
  suffices H : ∀ n (a : List Nat), a.length ≤ n → validUtf8 a = true →
      validUtf8 (a ++ l) = true from H a.length a le_rfl ha
  intro n
  induction n with
  | zero =>
    intro a hlen _
    rw [List.length_eq_zero.mp (Nat.le_zero.mp hlen)]
    simpa using hl
  | succ n ih =>
    intro a hlen ha
    cases a with
    | nil => simpa using hl
    | cons b rest =>
      simp only [List.length_cons] at hlen
      rw [validUtf8.eq_def] at ha
      rw [List.cons_append, validUtf8.eq_def]
      cases hcl : classifyLead b with
      | ascii =>
        simp only [hcl] at ha ⊢
        exact ih rest (by omega) ha
      | two =>
        rcases rest with _ | ⟨b2, r⟩
        · simp only [hcl] at ha
          exact absurd ha (by simp)
        · simp only [hcl, List.cons_append] at ha ⊢
          rw [Bool.and_eq_true] at ha ⊢
          refine ⟨ha.1, ih r ?_ ha.2⟩
          simp only [List.length_cons] at hlen
          omega
      | three =>
        rcases rest with _ | ⟨b2, _ | ⟨b3, r⟩⟩
        · simp only [hcl] at ha
          exact absurd ha (by simp)
        · simp only [hcl] at ha
          exact absurd ha (by simp)
        · simp only [hcl, List.cons_append] at ha ⊢
          simp only [Bool.and_eq_true] at ha ⊢
          refine ⟨ha.1, ha.2.1, ih r ?_ ha.2.2⟩
          simp only [List.length_cons] at hlen
          omega
      | four =>
        rcases rest with _ | ⟨b2, _ | ⟨b3, _ | ⟨b4, r⟩⟩⟩
        · simp only [hcl] at ha
          exact absurd ha (by simp)
        · simp only [hcl] at ha
          exact absurd ha (by simp)
        · simp only [hcl] at ha
          exact absurd ha (by simp)
        · simp only [hcl, List.cons_append] at ha ⊢
          simp only [Bool.and_eq_true] at ha ⊢
          refine ⟨ha.1, ha.2.1, ha.2.2.1, ih r ?_ ha.2.2.2⟩
          simp only [List.length_cons] at hlen
          omega
      | bad =>
        simp only [hcl] at ha
        exact absurd ha (by simp)

/-- Valid UTF-8 byte lists contain only bytes below 256. -/
theorem validUtf8_lt_256 (l : List Nat) (h : validUtf8 l = true) :
    ∀ b ∈ l, b < 256 := by
  suffices H : ∀ n (a : List Nat), a.length ≤ n → validUtf8 a = true →
      ∀ b ∈ a, b < 256 from H l.length l le_rfl h
  intro n
  induction n with
  | zero =>
    intro a hlen _ b hb
    rw [List.length_eq_zero.mp (Nat.le_zero.mp hlen)] at hb
    simp at hb
  | succ n ih =>
    intro a hlen ha
    cases a with
    | nil => simp
    | cons b rest =>
      simp only [List.length_cons] at hlen
      rw [validUtf8.eq_def] at ha
      cases hcl : classifyLead b with
      | ascii =>
        simp only [hcl] at ha
        have hb := classifyLead_bound_ascii b hcl
        intro x hx
        rcases List.mem_cons.mp hx with rfl | hx
        · omega
        · exact ih rest (by omega) ha x hx
      | two =>
        rcases rest with _ | ⟨b2, r⟩
        · simp only [hcl] at ha
          exact absurd ha (by simp)
        · simp only [hcl, Bool.and_eq_true] at ha
          have hb := classifyLead_bound_two b hcl
          have hb2 := utf8Snd_range b b2 ha.1
          intro x hx
          simp only [List.length_cons] at hlen
          rcases List.mem_cons.mp hx with rfl | hx
          · omega
          · rcases List.mem_cons.mp hx with rfl | hx
            · omega
            · exact ih r (by omega) ha.2 x hx
      | three =>
        rcases rest with _ | ⟨b2, _ | ⟨b3, r⟩⟩
        · simp only [hcl] at ha
          exact absurd ha (by simp)
        · simp only [hcl] at ha
          exact absurd ha (by simp)
        · simp only [hcl, Bool.and_eq_true] at ha
          have hb := classifyLead_bound_three b hcl
          have hb2 := utf8Snd_range b b2 ha.1
          have hb3 := isCont_range b3 ha.2.1
          intro x hx
          simp only [List.length_cons] at hlen
          rcases List.mem_cons.mp hx with rfl | hx
          · omega
          · rcases List.mem_cons.mp hx with rfl | hx
            · omega
            · rcases List.mem_cons.mp hx with rfl | hx
              · omega
              · exact ih r (by omega) ha.2.2 x hx
      | four =>
        rcases rest with _ | ⟨b2, _ | ⟨b3, _ | ⟨b4, r⟩⟩⟩
        · simp only [hcl] at ha
          exact absurd ha (by simp)
        · simp only [hcl] at ha
          exact absurd ha (by simp)
        · simp only [hcl] at ha
          exact absurd ha (by simp)
        · simp only [hcl, Bool.and_eq_true] at ha
          have hb := classifyLead_bound_four b hcl
          have hb2 := utf8Snd_range b b2 ha.1
          have hb3 := isCont_range b3 ha.2.1
          have hb4 := isCont_range b4 ha.2.2.1
          intro x hx
          simp only [List.length_cons] at hlen
          rcases List.mem_cons.mp hx with rfl | hx
          · omega
          · rcases List.mem_cons.mp hx with rfl | hx
            · omega
            · rcases List.mem_cons.mp hx with rfl | hx
              · omega
              · rcases List.mem_cons.mp hx with rfl | hx
                · omega
                · exact ih r (by omega) ha.2.2.2 x hx
      | bad =>
        simp only [hcl] at ha
        exact absurd ha (by simp)

/-! ## Authentication tokens (`crypto.rs`)

`AuthToken::generate` and `AuthToken::verify`, parametric over the HMAC
primitive (`hmac key msg`, the external `hmac`/`sha2` crates). The token
byte strings are `List Nat`; `now` is an explicit argument where the
source reads the system clock. -/

namespace AuthToken

/-- Bytes of the fixed tag `"smtp-tunnel-auth:"` used in the MAC input. -/
def authTag : List Nat := strBytes ("smtp-tunnel-auth:")

/-- `AuthToken::generate`: `base64(username ":" timestamp ":" base64(hmac))`.
The appends spell out the `format!` concatenations of the source. -/
def generate (hmac : List Nat → List Nat → List Nat)
    (secret username : List Nat) (timestamp : Nat) : List Nat :=
  let message := authTag ++ (username ++ (58 :: natDecimal timestamp))
  let hmacB64 := base64Encode (hmac secret message)
  base64Encode (username ++ (58 :: (natDecimal timestamp ++ (58 :: hmacB64))))

/-- `AuthToken::verify`: base64-decode, UTF-8-check, split on `':'` into
exactly three parts, parse the timestamp, check freshness with a
saturating subtraction, recompute the expected token and compare with the
short-circuit length-then-bytes equality of the source. -/
def verify (hmac : List Nat → List Nat → List Nat)
    (tokenB64 secret : List Nat) (maxAgeSecs now : Nat) :
    Bool × Option (List Nat) :=
  match base64Decode tokenB64 with
  | none => (false, none)
  | some d =>
    if validUtf8 d then
      match splitOnByte 58 d with
      | [username, tsStr, _hmacPart] =>
        match parseU64 tsStr with
        | none => (false, none)
        | some timestamp =>
          if now - timestamp > maxAgeSecs then (false, none)
          else
            let expected := generate hmac secret username timestamp
            let valid := expected.length == tokenB64.length &&
              (expected.zip tokenB64).all fun p => p.1 == p.2
            if valid then (true, some username) else (false, none)
      | _ => (false, none)
    else (false, none)

/-- Count of byte pairs examined by the short-circuiting `.all` comparison
in `AuthToken::verify` (it stops at the first mismatching pair). -/
def cmpCount : List Nat → List Nat → Nat
  | a :: xs, b :: ys => if a == b then 1 + cmpCount xs ys else 1
  | _, _ => 0

/-- Cost model of `AuthToken::verify`: the number of byte comparisons its
final comparison loop performs on a given token (0 when that comparison is
never reached or the length check already fails). -/
def verifyCompareCount (hmac : List Nat → List Nat → List Nat)
    (tokenB64 secret : List Nat) (maxAgeSecs now : Nat) : Nat :=
  match base64Decode tokenB64 with
  | none => 0
  | some d =>
    if validUtf8 d then
      match splitOnByte 58 d with
      | [username, tsStr, _hmacPart] =>
        match parseU64 tsStr with
        | none => 0
        | some timestamp =>
          if now - timestamp > maxAgeSecs then 0
          else
            let expected := generate hmac secret username timestamp
            if expected.length == tokenB64.length
            then cmpCount expected tokenB64 else 0
      | _ => 0
    else 0

theorem zip_self_all_eq (l : List Nat) :
    (l.zip l).all (fun p => p.1 == p.2) = true := by
  induction l with
  | nil => rfl
  | cons b rest ih => simp [List.zip_cons_cons, ih]

/-- Evaluation of `verify` on a token produced by `generate` with the same
secret: only the freshness check can fail. -/
theorem verify_generate (hmac : List Nat → List Nat → List Nat)
    (secret username : List Nat) (ts maxAge now : Nat)
    (hu : validUtf8 username = true) (hc : 58 ∉ username)
    (hts : ts < 2 ^ 64) :
    verify hmac (generate hmac secret username ts) secret maxAge now =
      if now - ts > maxAge then (false, none) else (true, some username) := by
  have h1 : generate hmac secret username ts =
      base64Encode (username ++ (58 :: (natDecimal ts ++
        (58 :: base64Encode (hmac secret (authTag ++
          (username ++ (58 :: natDecimal ts)))))))) := rfl
  set mac := base64Encode (hmac secret (authTag ++
    (username ++ (58 :: natDecimal ts)))) with hmac_def
  set inner := username ++ (58 :: (natDecimal ts ++ (58 :: mac))) with hinner
  have hbytes : ∀ b ∈ inner, b < 256 := by
    intro b hb
    rcases List.mem_append.mp hb with h | h
    · exact validUtf8_lt_256 username hu b h
    · rcases List.mem_cons.mp h with rfl | h
      · omega
      · rcases List.mem_append.mp h with h | h
        · have := natDecimal_digits ts b h; omega
        · rcases List.mem_cons.mp h with rfl | h
          · omega
          · have := base64Encode_lt_128 _ b h; omega
  have htail : validUtf8 (58 :: (natDecimal ts ++ (58 :: mac))) = true := by
    apply validUtf8_ascii
    intro b hb
    rcases List.mem_cons.mp hb with rfl | hb
    · omega
    · rcases List.mem_append.mp hb with h | h
      · have := natDecimal_digits ts b h; omega
      · rcases List.mem_cons.mp h with rfl | h
        · omega
        · exact base64Encode_lt_128 _ b h
  have hvalid : validUtf8 inner = true := validUtf8_append _ _ hu htail
  have hsplit : splitOnByte 58 inner = [username, natDecimal ts, mac] := by
    rw [hinner, splitOnByte_append 58 username _ hc,
      splitOnByte_append 58 (natDecimal ts) mac (colon_not_mem_natDecimal ts),
      splitOnByte_of_not_mem 58 mac (colon_not_mem_base64Encode _)]
  rw [verify, h1, base64Decode_encode inner hbytes]
  simp only [hvalid, if_true, hsplit, parseU64_natDecimal ts hts]
  split
  · rfl
  · rw [h1]
    simp [zip_self_all_eq]

end AuthToken

/-- C4: for every secret, every valid-UTF-8 username not containing ':',
and every `u64` timestamp, verifying `generate(secret, username, ts)`
against the same secret succeeds and returns that username if and only if
`now − ts ≤ max_age` (the saturating subtraction of the source accepts
every future-dated timestamp, which agrees with the integer inequality). -/
theorem C4_token_roundtrip (hmac : List Nat → List Nat → List Nat)
    (secret username : List Nat) (ts maxAge now : Nat)
    (hu : validUtf8 username = true) (hc : 58 ∉ username)
    (hts : ts < 2 ^ 64) :
    AuthToken.verify hmac (AuthToken.generate hmac secret username ts)
        secret maxAge now = (true, some username) ↔
      (now : Int) - (ts : Int) ≤ (maxAge : Int) := by
  rw [AuthToken.verify_generate hmac secret username ts maxAge now hu hc hts]
  constructor
  · intro h
    split at h
    · simp at h
    · rename_i hle
      omega
  · intro h
    rw [if_neg (by omega)]

/-- Witness for C4: a concrete round trip with `now − ts = 2 ≤ 300`. -/
theorem C4_token_roundtrip_witness :
    AuthToken.verify (fun _ _ => [])
        (AuthToken.generate (fun _ _ => []) [107] (strBytes ("alice")) 5)
        [107] 300 7 = (true, some (strBytes ("alice"))) :=
  (C4_token_roundtrip (fun _ _ => []) [107] (strBytes ("alice")) 5 300 7
    (by decide) (by decide) (by decide)).mpr (by decide)

/-- C10: a valid-UTF-8 username containing ':' (byte 58) can never
authenticate: the decoded token splits into more than three
colon-separated parts, so `verify` on any token generated for it fails. -/
theorem C10_colon_username_never_verifies
    (hmac : List Nat → List Nat → List Nat)
    (secret username : List Nat) (ts maxAge now : Nat)
    (hu : validUtf8 username = true) (hc : 58 ∈ username) :
    AuthToken.verify hmac (AuthToken.generate hmac secret username ts)
      secret maxAge now = (false, none) := by
  have h1 : AuthToken.generate hmac secret username ts =
      base64Encode (username ++ (58 :: (natDecimal ts ++
        (58 :: base64Encode (hmac secret (AuthToken.authTag ++
          (username ++ (58 :: natDecimal ts)))))))) := rfl
  set mac := base64Encode (hmac secret (AuthToken.authTag ++
    (username ++ (58 :: natDecimal ts)))) with hmac_def
  set inner := username ++ (58 :: (natDecimal ts ++ (58 :: mac))) with hinner
  have hbytes : ∀ b ∈ inner, b < 256 := by
    intro b hb
    rcases List.mem_append.mp hb with h | h
    · exact validUtf8_lt_256 username hu b h
    · rcases List.mem_cons.mp h with rfl | h
      · omega
      · rcases List.mem_append.mp h with h | h
        · have := natDecimal_digits ts b h; omega
        · rcases List.mem_cons.mp h with rfl | h
          · omega
          · have := base64Encode_lt_128 _ b h; omega
  have hvalid : validUtf8 inner = true := by
    apply validUtf8_append _ _ hu
    apply validUtf8_ascii
    intro b hb
    rcases List.mem_cons.mp hb with rfl | hb
    · omega
    · rcases List.mem_append.mp hb with h | h
      · have := natDecimal_digits ts b h; omega
      · rcases List.mem_cons.mp h with rfl | h
        · omega
        · exact base64Encode_lt_128 _ b h
  have hcount : 4 ≤ (splitOnByte 58 inner).length := by
    rw [splitOnByte_length]
    have hpos : 0 < username.count 58 := List.count_pos_iff.mpr hc
    have : inner.count 58 =
        username.count 58 + (58 :: (natDecimal ts ++ (58 :: mac))).count 58 := by
      rw [hinner, List.count_append]
    rw [this]
    have h58 : (58 :: (natDecimal ts ++ (58 :: mac))).count 58 =
        (natDecimal ts ++ (58 :: mac)).count 58 + 1 := by
      simp [List.count_cons]
    have h58b : (natDecimal ts ++ (58 :: mac)).count 58 =
        (natDecimal ts).count 58 + ((58 :: mac).count 58) := List.count_append ..
    have h58c : (58 :: mac).count 58 = mac.count 58 + 1 := by
      simp [List.count_cons]
    omega
  rw [AuthToken.verify, h1, base64Decode_encode inner hbytes]
  simp only [hvalid, if_true]
  rcases hparts : splitOnByte 58 inner with _ | ⟨a, _ | ⟨b, _ | ⟨c, _ | ⟨d, ps⟩⟩⟩⟩ <;>
    first
      | rfl
      | (rw [hparts] at hcount; simp at hcount)

/-- Witness for C10: `verify(generate(...))` fails for username `"a:b"`. -/
theorem C10_colon_username_never_verifies_witness :
    AuthToken.verify (fun _ _ => [])
        (AuthToken.generate (fun _ _ => []) [107] (strBytes ("a:b")) 5)
        [107] 300 7 = (false, none) :=
  C10_colon_username_never_verifies (fun _ _ => []) [107] (strBytes ("a:b"))
    5 300 7 (by decide) (by decide)

/-- C3 evaluation: `AuthToken::verify` accepts a token whose embedded
timestamp (1000) is strictly greater than `now` (0): the saturating
subtraction `now.saturating_sub(ts)` yields 0, which never exceeds
`max_age`, so no forward-dated token is ever rejected. The claim says such
tokens must fail verification; the code returns success. -/
theorem C3_future_token_accepted :
    AuthToken.verify (fun _ _ => [])
        (AuthToken.generate (fun _ _ => []) [107] (strBytes ("alice")) 1000)
        [107] 300 0 = (true, some (strBytes ("alice"))) := by
  rw [AuthToken.verify_generate (fun _ _ => []) [107] (strBytes ("alice"))
    1000 300 0 (by decide) (by decide) (by decide)]
  decide

/-- A trivial concrete HMAC (three zero bytes) used for the constant-time
comparison experiment. -/
def c2Hmac : List Nat → List Nat → List Nat := fun _ _ => [0, 0, 0]

/-- A forged token whose inner credentials `"a:0:BAAA"` first differ from
the expected `"a:0:AAAA"` at inner position 4. -/
def c2Token1 : List Nat := base64Encode (strBytes ("a:0:BAAA"))

/-- A forged token whose inner credentials `"a:0:AAAB"` first differ from
the expected `"a:0:AAAA"` at inner position 7. -/
def c2Token2 : List Nat := base64Encode (strBytes ("a:0:AAAB"))

/-- C2 evaluation: two equal-length forged tokens, both rejected, make the
short-circuiting comparison loop of `AuthToken::verify` examine different
numbers of byte pairs (the `.all` iterator stops at the first mismatch),
so the comparison count depends on the position of the first mismatching
byte, contradicting the constant-time claim. -/
theorem C2_verify_comparison_count_depends_on_mismatch :
    c2Token1.length = c2Token2.length ∧
    (AuthToken.verify c2Hmac c2Token1 [107] 300 0).1 = false ∧
    (AuthToken.verify c2Hmac c2Token2 [107] 300 0).1 = false ∧
    AuthToken.verifyCompareCount c2Hmac c2Token1 [107] 300 0 ≠
      AuthToken.verifyCompareCount c2Hmac c2Token2 [107] 300 0 := by
  decide

/-! ## Binary frame codec (`proto/frames.rs`)

`Frame::serialize` and `FrameCodec::decode` over byte lists. The decoder
returns the frames it yields together with the buffer it leaves behind
(`BytesMut` mutation made explicit). -/

/-- The seven frame type tags of `proto/frames.rs`. -/
inductive FrameType where
  | data
  | connect
  | connectOk
  | connectFail
  | close
  | keepalive
  | keepaliveAck
deriving DecidableEq

namespace FrameType

/-- The `#[repr(u8)]` tag of each frame type. -/
def toU8 : FrameType → Nat
  | .data => 1
  | .connect => 2
  | .connectOk => 3
  | .connectFail => 4
  | .close => 5
  | .keepalive => 6
  | .keepaliveAck => 7

/-- `FrameType::from_u8`. -/
def from_u8 (v : Nat) : Option FrameType :=
  if v = 1 then some .data
  else if v = 2 then some .connect
  else if v = 3 then some .connectOk
  else if v = 4 then some .connectFail
  else if v = 5 then some .close
  else if v = 6 then some .keepalive
  else if v = 7 then some .keepaliveAck
  else none

theorem from_u8_toU8 (t : FrameType) : from_u8 t.toU8 = some t := by
  cases t <;> rfl

theorem from_u8_none (v : Nat) (h : ¬(1 ≤ v ∧ v ≤ 7)) : from_u8 v = none := by
  unfold from_u8
  split_ifs <;> first
    | rfl
    | (exfalso; omega)

end FrameType

/-- A mux frame: `channel_id` is a `u16` in the source and `payload` is a
byte buffer; both constraints appear as hypotheses where they matter. -/
structure Frame where
  frame_type : FrameType
  channel_id : Nat
  payload : List Nat
deriving DecidableEq

/-- `Frame::serialize`: `type(1) | channel_id(2, be) | length(2, be) |
payload`. The `% 65536` on the length is the source's `as u16` cast; the
one on `channel_id` states its `u16` type. -/
def Frame.serialize (f : Frame) : List Nat :=
  f.frame_type.toU8 ::
    (f.channel_id % 65536 / 256) :: (f.channel_id % 256) ::
    (f.payload.length % 65536 / 256) :: (f.payload.length % 256) ::
    f.payload

/-- Decoder errors (`FrameError`); the `Io`/`Incomplete` variants are never
produced by `decode` itself. -/
inductive FrameError where
  | invalidType (v : Nat)
  | payloadTooLarge (n : Nat)
deriving DecidableEq

/-- `FrameCodec::decode` on an explicit buffer: returns either an error or
an optional frame plus the buffer left for the next call (the source
mutates `src` in place; returning `Ok(None)` leaves it unchanged). -/
def FrameCodec.decode (src : List Nat) :
    Except FrameError (Option Frame × List Nat) :=
  match src with
  | t :: b1 :: b2 :: b3 :: b4 :: rest =>
    let payloadLen := b3 * 256 + b4
    match FrameType.from_u8 t with
    | none => .error (.invalidType t)
    | some ft =>
      if 65535 < payloadLen then .error (.payloadTooLarge payloadLen)
      else if rest.length < payloadLen then .ok (none, src)
      else .ok (some ⟨ft, b1 * 256 + b2, rest.take payloadLen⟩,
        rest.drop payloadLen)
  | _ => .ok (none, src)

/-- C6: decoding the serialization of any frame with a `u16` channel id and
a payload of at most 65535 bytes yields exactly that frame and consumes
the entire serialization. -/
theorem C6_frame_roundtrip (t : FrameType) (cid : Nat) (payload : List Nat)
    (hcid : cid < 65536) (hlen : payload.length ≤ 65535) :
    FrameCodec.decode (Frame.serialize ⟨t, cid, payload⟩) =
      .ok (some ⟨t, cid, payload⟩, []) := by
  have hcid' : cid % 65536 = cid := Nat.mod_eq_of_lt hcid
  have hlen' : payload.length % 65536 = payload.length :=
    Nat.mod_eq_of_lt (by omega)
  rw [Frame.serialize]
  simp only [FrameCodec.decode, hcid', hlen', FrameType.from_u8_toU8]
  have hplen : payload.length / 256 * 256 + payload.length % 256 =
      payload.length := by omega
  rw [if_neg (by omega), if_neg (by omega), hplen, List.take_length,
    List.drop_length, show cid / 256 * 256 + cid % 256 = cid from by omega]

/-- Witness for C6 at a concrete frame. -/
theorem C6_frame_roundtrip_witness :
    FrameCodec.decode (Frame.serialize ⟨.data, 300, [7, 8, 9]⟩) =
      .ok (some ⟨.data, 300, [7, 8, 9]⟩, []) :=
  C6_frame_roundtrip .data 300 [7, 8, 9] (by decide) (by decide)

/-- C8: with fewer than 5 buffered bytes `decode` yields no frame and
leaves the buffer unchanged; with at least 5 bytes and a first byte
outside the tags 1–7 it fails with `InvalidType`; and on buffers of actual
bytes (each < 256) the `PayloadTooLarge` branch is unreachable, because
the declared length comes from a 16-bit field. -/
theorem C8_decode_partial_and_errors :
    (∀ src : List Nat, src.length < 5 →
      FrameCodec.decode src = .ok (none, src)) ∧
    (∀ (t b1 b2 b3 b4 : Nat) (rest : List Nat), ¬(1 ≤ t ∧ t ≤ 7) →
      FrameCodec.decode (t :: b1 :: b2 :: b3 :: b4 :: rest) =
        .error (.invalidType t)) ∧
    (∀ src : List Nat, (∀ b ∈ src, b < 256) →
      ∀ n, FrameCodec.decode src ≠ .error (.payloadTooLarge n)) := by
  refine ⟨?_, ?_, ?_⟩
  · intro src hlen
    rcases src with _ | ⟨t, _ | ⟨b1, _ | ⟨b2, _ | ⟨b3, _ | ⟨b4, rest⟩⟩⟩⟩⟩ <;>
      first
        | rfl
        | (exact absurd hlen (by simp))
  · intro t b1 b2 b3 b4 rest h
    simp only [FrameCodec.decode, FrameType.from_u8_none t h]
  · intro src hb n
    rcases src with _ | ⟨t, _ | ⟨b1, _ | ⟨b2, _ | ⟨b3, _ | ⟨b4, rest⟩⟩⟩⟩⟩
    · simp [FrameCodec.decode]
    · simp [FrameCodec.decode]
    · simp [FrameCodec.decode]
    · simp [FrameCodec.decode]
    · simp [FrameCodec.decode]
    · have h3 : b3 < 256 := hb b3 (by simp)
      have h4 : b4 < 256 := hb b4 (by simp)
      have hle : ¬ 65535 < b3 * 256 + b4 := by omega
      intro h
      simp only [FrameCodec.decode] at h
      split at h
      · simp at h
      · rw [if_neg hle] at h
        split at h <;> simp at h

/-- A successful `decode` consumes at least the 5 header bytes. -/
theorem decode_some_length (src : List Nat) (f : Frame) (rest : List Nat)
    (h : FrameCodec.decode src = .ok (some f, rest)) :
    rest.length < src.length := by
  rcases src with _ | ⟨t, _ | ⟨b1, _ | ⟨b2, _ | ⟨b3, _ | ⟨b4, r0⟩⟩⟩⟩⟩
  · simp [FrameCodec.decode] at h
  · simp [FrameCodec.decode] at h
  · simp [FrameCodec.decode] at h
  · simp [FrameCodec.decode] at h
  · simp [FrameCodec.decode] at h
  · simp only [FrameCodec.decode] at h
    split at h
    · simp at h
    · split at h
      · simp at h
      · split at h
        · simp at h
        · simp only [Except.ok.injEq, Prod.mk.injEq, Option.some.injEq] at h
          rw [← h.2]
          simp only [List.length_drop, List.length_cons]
          omega

/-- When `decode` yields no frame it returns the buffer unchanged. -/
theorem decode_none_self (src buf : List Nat)
    (h : FrameCodec.decode src = .ok (none, buf)) : buf = src := by
  rcases src with _ | ⟨t, _ | ⟨b1, _ | ⟨b2, _ | ⟨b3, _ | ⟨b4, r0⟩⟩⟩⟩⟩
  · injection h with h1
    injection h1 with _ hb
    exact hb.symm
  · injection h with h1
    injection h1 with _ hb
    exact hb.symm
  · injection h with h1
    injection h1 with _ hb
    exact hb.symm
  · injection h with h1
    injection h1 with _ hb
    exact hb.symm
  · injection h with h1
    injection h1 with _ hb
    exact hb.symm
  · simp only [FrameCodec.decode] at h
    split at h
    · simp at h
    · split at h
      · simp at h
      · split at h
        · simp only [Except.ok.injEq, Prod.mk.injEq] at h
          exact h.2.symm
        · simp at h

/-- A `decode` error is stable under appending more input. -/
theorem decode_error_append (src ys : List Nat) (e : FrameError)
    (h : FrameCodec.decode src = .error e) :
    FrameCodec.decode (src ++ ys) = .error e := by
  rcases src with _ | ⟨t, _ | ⟨b1, _ | ⟨b2, _ | ⟨b3, _ | ⟨b4, r0⟩⟩⟩⟩⟩
  · simp [FrameCodec.decode] at h
  · simp [FrameCodec.decode] at h
  · simp [FrameCodec.decode] at h
  · simp [FrameCodec.decode] at h
  · simp [FrameCodec.decode] at h
  · simp only [FrameCodec.decode] at h
    simp only [List.cons_append, FrameCodec.decode]
    split at h
    · exact h
    · split at h
      · rename_i hlarge
        rw [if_pos hlarge]
        exact h
      · split at h <;> simp at h

/-- A decoded frame and the leftover are stable under appending input. -/
theorem decode_some_append (src ys : List Nat) (f : Frame) (rest : List Nat)
    (h : FrameCodec.decode src = .ok (some f, rest)) :
    FrameCodec.decode (src ++ ys) = .ok (some f, rest ++ ys) := by
  rcases src with _ | ⟨t, _ | ⟨b1, _ | ⟨b2, _ | ⟨b3, _ | ⟨b4, r0⟩⟩⟩⟩⟩
  · simp [FrameCodec.decode] at h
  · simp [FrameCodec.decode] at h
  · simp [FrameCodec.decode] at h
  · simp [FrameCodec.decode] at h
  · simp [FrameCodec.decode] at h
  · simp only [FrameCodec.decode] at h
    simp only [List.cons_append, FrameCodec.decode]
    split at h
    · simp at h
    · split at h
      · simp at h
      · rename_i hlarge
        rw [if_neg hlarge]
        split at h
        · simp at h
        · rename_i hshort
          simp only [Except.ok.injEq, Prod.mk.injEq, Option.some.injEq] at h
          rw [if_neg (by simp only [List.length_append]; omega)]
          simp only [Except.ok.injEq, Prod.mk.injEq, Option.some.injEq]
          constructor
          · rw [← h.1, List.take_append_of_le_length (by omega)]
          · rw [← h.2, List.drop_append_of_le_length (by omega)]

/-- Repeatedly call `decode` on the buffer, collecting frames, until it
yields no frame (`Ok` with the leftover buffer) or errors — the read loop
driving `FrameCodec` in the binary phase. -/
def drainFrames (src : List Nat) : List Frame × Except FrameError (List Nat) :=
  match hd : FrameCodec.decode src with
  | .error e => ([], .error e)
  | .ok (none, buf) => ([], .ok buf)
  | .ok (some f, rest) =>
    let r := drainFrames rest
    (f :: r.1, r.2)
termination_by src.length
decreasing_by exact decode_some_length src f rest hd

/-- Feed chunks one at a time: append each chunk to the leftover buffer,
drain all complete frames, stop at the first error. -/
def feedChunks : List (List Nat) → List Nat →
    List Frame × Except FrameError (List Nat)
  | [], buf => ([], .ok buf)
  | c :: cs, buf =>
    match drainFrames (buf ++ c) with
    | (fs, .error e) => (fs, .error e)
    | (fs, .ok leftover) =>
      let r := feedChunks cs leftover
      (fs ++ r.1, r.2)

/-- After a successful drain, the leftover buffer decodes to no frame. -/
theorem drainFrames_ok_decode_none (src : List Nat) :
    ∀ (fs : List Frame) (leftover : List Nat),
      drainFrames src = (fs, .ok leftover) →
      FrameCodec.decode leftover = .ok (none, leftover) := by
  induction src using drainFrames.induct with
  | case1 src e hd =>
    intro fs leftover h
    rw [drainFrames, hd] at h
    simp at h
  | case2 src buf hd =>
    intro fs leftover h
    rw [drainFrames, hd] at h
    simp only [Prod.mk.injEq, Except.ok.injEq] at h
    rw [← h.2]
    have hb := decode_none_self src buf hd
    rw [hb] at hd ⊢
    exact hd
  | case3 src f rest hd ih =>
    intro fs leftover h
    rw [drainFrames, hd] at h
    simp only [Prod.mk.injEq] at h
    rcases hr : drainFrames rest with ⟨fs0, out0⟩
    rw [hr] at h
    cases out0 with
    | error e => simp at h
    | ok l0 =>
      simp only [Except.ok.injEq] at h
      exact ih fs0 leftover (by rw [hr, h.2])

theorem drainFrames_eq_error (src : List Nat) (e : FrameError)
    (hd : FrameCodec.decode src = .error e) :
    drainFrames src = ([], .error e) := by
  rw [drainFrames, hd]

theorem drainFrames_eq_none (src buf : List Nat)
    (hd : FrameCodec.decode src = .ok (none, buf)) :
    drainFrames src = ([], .ok buf) := by
  rw [drainFrames, hd]

theorem drainFrames_eq_some (src : List Nat) (f : Frame) (rest : List Nat)
    (hd : FrameCodec.decode src = .ok (some f, rest)) :
    drainFrames src = (f :: (drainFrames rest).1, (drainFrames rest).2) := by
  rw [drainFrames, hd]

/-- A drain that ends in an error gives the same frames and error after any
further input is appended. -/
theorem drainFrames_error_append (src ys : List Nat) :
    ∀ (fs : List Frame) (e : FrameError), drainFrames src = (fs, .error e) →
      drainFrames (src ++ ys) = (fs, .error e) := by
  induction src using drainFrames.induct with
  | case1 src e0 hd =>
    intro fs e h
    rw [drainFrames_eq_error src e0 hd] at h
    rw [drainFrames_eq_error (src ++ ys) e0 (decode_error_append src ys e0 hd)]
    exact h
  | case2 src buf hd =>
    intro fs e h
    rw [drainFrames_eq_none src buf hd] at h
    simp at h
  | case3 src f rest hd ih =>
    intro fs e h
    rw [drainFrames_eq_some src f rest hd] at h
    rw [drainFrames_eq_some (src ++ ys) f (rest ++ ys)
      (decode_some_append src ys f rest hd)]
    rcases hr : drainFrames rest with ⟨fs0, out0⟩
    rw [hr] at h
    cases out0 with
    | ok l0 => simp at h
    | error e0 =>
      rw [ih fs0 e0 hr]
      exact h

/-- A drain that ends waiting for input continues, after appending more
input, with exactly the frames of draining the leftover plus that input. -/
theorem drainFrames_ok_append (src ys : List Nat) :
    ∀ (fs : List Frame) (leftover : List Nat),
      drainFrames src = (fs, .ok leftover) →
      drainFrames (src ++ ys) =
        (fs ++ (drainFrames (leftover ++ ys)).1,
          (drainFrames (leftover ++ ys)).2) := by
  induction src using drainFrames.induct with
  | case1 src e0 hd =>
    intro fs leftover h
    rw [drainFrames_eq_error src e0 hd] at h
    simp at h
  | case2 src buf hd =>
    intro fs leftover h
    rw [drainFrames_eq_none src buf hd] at h
    simp only [Prod.mk.injEq, Except.ok.injEq] at h
    have hbuf : buf = src := decode_none_self src buf hd
    rw [← h.1, ← h.2, hbuf]
    simp
  | case3 src f rest hd ih =>
    intro fs leftover h
    rw [drainFrames_eq_some src f rest hd] at h
    rw [drainFrames_eq_some (src ++ ys) f (rest ++ ys)
      (decode_some_append src ys f rest hd)]
    rcases hr : drainFrames rest with ⟨fs0, out0⟩
    rw [hr] at h
    cases out0 with
    | error e0 => simp at h
    | ok l0 =>
      simp only [Prod.mk.injEq, Except.ok.injEq] at h
      rw [ih fs0 l0 hr, ← h.1, ← h.2]
      simp

/-- Feeding chunks one at a time equals draining the whole concatenation,
for any starting buffer that is already drained. -/
theorem feedChunks_drain (chunks : List (List Nat)) :
    ∀ buf : List Nat, FrameCodec.decode buf = .ok (none, buf) →
      feedChunks chunks buf = drainFrames (buf ++ chunks.flatten) := by
  induction chunks with
  | nil =>
    intro buf h
    show ([], .ok buf) = drainFrames (buf ++ List.flatten [])
    rw [List.flatten_nil, List.append_nil, drainFrames_eq_none buf buf h]
  | cons c cs ih =>
    intro buf h
    have hassoc : buf ++ (c :: cs).flatten = (buf ++ c) ++ cs.flatten := by
      simp [List.append_assoc]
    rcases hr : drainFrames (buf ++ c) with ⟨fs0, out0⟩
    cases out0 with
    | error e =>
      rw [feedChunks, hr, hassoc,
        drainFrames_error_append (buf ++ c) cs.flatten fs0 e hr]
    | ok leftover =>
      have hl := drainFrames_ok_decode_none (buf ++ c) fs0 leftover hr
      rw [feedChunks, hr, hassoc,
        drainFrames_ok_append (buf ++ c) cs.flatten fs0 leftover hr,
        ← ih leftover hl]

/-- C7: chunking invariance of the decoder — feeding any chunking of a byte
sequence through `decode` (accumulating leftovers, stopping at the first
error) produces the same frames and the same final outcome as feeding the
whole concatenation at once. -/
theorem C7_chunked_decoding_invariant (chunks : List (List Nat)) :
    feedChunks chunks [] = drainFrames chunks.flatten := by
  have h := feedChunks_drain chunks [] rfl
  simpa using h

/-- Witness for C8 at concrete buffers. -/
theorem C8_decode_partial_and_errors_witness :
    FrameCodec.decode [1, 2] = .ok (none, [1, 2]) ∧
    FrameCodec.decode [9, 0, 0, 0, 0] = .error (.invalidType 9) ∧
    FrameCodec.decode [1, 0, 0, 255, 255] ≠ .error (.payloadTooLarge 65535) :=
  ⟨C8_decode_partial_and_errors.1 [1, 2] (by decide),
    C8_decode_partial_and_errors.2.1 9 0 0 0 0 [] (by decide),
    C8_decode_partial_and_errors.2.2 [1, 0, 0, 255, 255] (by decide) 65535⟩

/-! ## SMTP command dispatch (`server.rs`, `proto/smtp.rs`)

The pure command-dispatch step of `Server::handle_client` (plain TCP,
pre-STARTTLS) and `Server::handle_tls_session`. The outcome of the `AUTH`
argument parsing, token verification and whitelist check is abstracted
into an `AuthOutcome` parameter; replies are the `smtp::Response`
constructors the handlers write. -/

/-- `smtp::Command` (parsed verbs). -/
inductive Command where
  | ehlo
  | helo
  | starttls
  | auth
  | mail
  | rcpt
  | data
  | quit
  | binary
  | unknown
deriving DecidableEq

/-- `smtp::State`. -/
inductive SmtpState where
  | initial
  | greeted
  | tlsStarted
  | authenticated
  | binaryMode
  | quit
deriving DecidableEq

/-- Combined outcome of the `AUTH PLAIN` argument parsing, the token
verification (`verify_multi_user`) and the source-IP whitelist check that
the handlers perform inline. -/
inductive AuthOutcome where
  | badSyntax
  | invalid
  | validUser (whitelisted : Bool) (username : List Nat)
deriving DecidableEq

/-- The `smtp::Response` values written by the two handlers. -/
inductive ServerReply where
  | ehloReply (starttls : Bool)
  | starttlsReady
  | authSuccess
  | authFailed
  | binaryModeReply
  | goodbye
  | commandUnrecognized
  | badSequence
deriving DecidableEq

/-- The SMTP status code carried by each reply (`smtp::ResponseCode`). -/
def ServerReply.code : ServerReply → Nat
  | .ehloReply _ => 250
  | .starttlsReady => 220
  | .authSuccess => 235
  | .authFailed => 535
  | .binaryModeReply => 299
  | .goodbye => 221
  | .commandUnrecognized => 502
  | .badSequence => 503

/-- What the handler loop does after a command: keep looping, hand the
stream to the TLS session (`STARTTLS`), or leave the loop (`break` /
entering binary mode). -/
inductive HandlerAction where
  | continueLoop
  | upgradeTls
  | endSession
deriving DecidableEq

/-- One iteration of the plain-TCP command loop of `Server::handle_client`:
reply written, session state afterwards, and loop action. On `STARTTLS`
from `Greeted` the handler replies 220 and hands off to
`handle_tls_session`, which immediately sets the state to `TlsStarted`. -/
def handleClientStep (st : SmtpState) (cmd : Command) (auth : AuthOutcome) :
    ServerReply × SmtpState × HandlerAction :=
  match cmd with
  | .ehlo | .helo =>
    if st = .initial ∨ st = .greeted then
      (.ehloReply (¬(st = .tlsStarted ∨ st = .authenticated)),
        .greeted, .continueLoop)
    else (.badSequence, st, .continueLoop)
  | .starttls =>
    if st = .greeted then (.starttlsReady, .tlsStarted, .upgradeTls)
    else (.badSequence, st, .continueLoop)
  | .auth =>
    if st = .greeted then
      match auth with
      | .badSyntax => (.authFailed, st, .continueLoop)
      | .invalid => (.authFailed, st, .continueLoop)
      | .validUser false _ => (.authFailed, st, .continueLoop)
      | .validUser true _ => (.authSuccess, .authenticated, .continueLoop)
    else (.badSequence, st, .continueLoop)
  | .binary =>
    if st = .authenticated then (.binaryModeReply, .binaryMode, .endSession)
    else (.authFailed, st, .continueLoop)
  | .quit => (.goodbye, st, .endSession)
  | .mail | .rcpt | .data | .unknown =>
    (.commandUnrecognized, st, .continueLoop)

/-- One iteration of the TLS command loop of `Server::handle_tls_session`:
`EHLO`/`HELO` are answered 250 in every state, `AUTH` is processed in
every state, `BINARY` requires `Authenticated`, everything else
(including `STARTTLS`) is answered 502. -/
def handleTlsStep (st : SmtpState) (cmd : Command) (auth : AuthOutcome) :
    ServerReply × SmtpState × HandlerAction :=
  match cmd with
  | .ehlo | .helo => (.ehloReply false, st, .continueLoop)
  | .auth =>
    match auth with
    | .badSyntax => (.authFailed, st, .continueLoop)
    | .invalid => (.authFailed, st, .continueLoop)
    | .validUser false _ => (.authFailed, st, .continueLoop)
    | .validUser true _ => (.authSuccess, .authenticated, .continueLoop)
  | .binary =>
    if st = .authenticated then (.binaryModeReply, .binaryMode, .endSession)
    else (.authFailed, st, .continueLoop)
  | .quit => (.goodbye, st, .endSession)
  | .starttls | .mail | .rcpt | .data | .unknown =>
    (.commandUnrecognized, st, .continueLoop)

/-- Run the plain-TCP command loop over a command sequence, stopping when
the handler leaves the loop (STARTTLS hand-off, BINARY, QUIT). -/
def runPlain (st : SmtpState) : List (Command × AuthOutcome) → SmtpState
  | [] => st
  | (cmd, auth) :: rest =>
    match handleClientStep st cmd auth with
    | (_, st2, .continueLoop) => runPlain st2 rest
    | (_, st2, _) => st2

/-- C1 evaluation: on a plain-TCP connection that never issues STARTTLS,
the command sequence `AUTH PLAIN <valid token>` then `BINARY` is accepted:
the `AUTH` step answers 235 and moves the session to `Authenticated`, the
`BINARY` step answers 299 and moves it to `BinaryMode`. The claim says
both commands must be refused without TLS and the session must stay
outside these states. -/
theorem C1_plain_auth_binary_accepted :
    runPlain .greeted
        [(.auth, .validUser true (strBytes ("alice"))), (.binary, .invalid)] =
      .binaryMode ∧
    handleClientStep .greeted .auth (.validUser true (strBytes ("alice"))) =
      (.authSuccess, .authenticated, .continueLoop) ∧
    handleClientStep .authenticated .binary .invalid =
      (.binaryModeReply, .binaryMode, .endSession) ∧
    ServerReply.code .authSuccess = 235 ∧
    ServerReply.code .binaryModeReply = 299 := by
  refine ⟨rfl, rfl, rfl, rfl, rfl⟩

/-- C9 counterexample: `BINARY` received out of order (state `Greeted`,
plain handler) is answered 535 `Authentication failed`, not 503 `Bad
sequence of commands`, refuting the claim that every recognized
out-of-order verb gets 503 (the state is unchanged, as claimed). -/
theorem C9_counterexample_binary_gets_535 :
    handleClientStep .greeted .binary .invalid =
      (.authFailed, .greeted, .continueLoop) ∧
    ServerReply.code .authFailed = 535 ∧
    ServerReply.code .authFailed ≠ 503 := by
  refine ⟨rfl, rfl, by decide⟩

/-- C9 amended: in the plain-TCP handler an out-of-order EHLO, HELO,
STARTTLS or AUTH is answered 503 with the state unchanged, while an
out-of-order BINARY is answered 535 with the state unchanged — in the TLS
handler as well. -/
theorem C9_out_of_order_replies (st : SmtpState) (auth : AuthOutcome) :
    (st ≠ .initial → st ≠ .greeted →
      handleClientStep st .ehlo auth = (.badSequence, st, .continueLoop) ∧
      handleClientStep st .helo auth = (.badSequence, st, .continueLoop)) ∧
    (st ≠ .greeted →
      handleClientStep st .starttls auth = (.badSequence, st, .continueLoop) ∧
      handleClientStep st .auth auth = (.badSequence, st, .continueLoop)) ∧
    (st ≠ .authenticated →
      handleClientStep st .binary auth = (.authFailed, st, .continueLoop) ∧
      handleTlsStep st .binary auth = (.authFailed, st, .continueLoop)) := by
  cases st <;>
    simp [handleClientStep, handleTlsStep]

/-- Witness for C9's amended statement at state `TlsStarted`. -/
theorem C9_out_of_order_replies_witness :
    handleClientStep .tlsStarted .ehlo .invalid =
      (.badSequence, .tlsStarted, .continueLoop) ∧
    handleClientStep .tlsStarted .starttls .invalid =
      (.badSequence, .tlsStarted, .continueLoop) ∧
    handleClientStep .tlsStarted .binary .invalid =
      (.authFailed, .tlsStarted, .continueLoop) :=
  ⟨((C9_out_of_order_replies .tlsStarted .invalid).1 (by decide) (by decide)).1,
    ((C9_out_of_order_replies .tlsStarted .invalid).2.1 (by decide)).1,
    ((C9_out_of_order_replies .tlsStarted .invalid).2.2 (by decide)).1⟩

/-! ## Per-user IP authorization (`server.rs` inline check,
`config.rs::is_ip_whitelisted`)

The handlers check the whitelist inline with a literal string membership
test; `config.rs` has `UsersConfig::is_ip_whitelisted`, which additionally
parses entries as CIDR blocks (`ipnet::IpNet`) and tests containment. The
external `ipnet`/`std::net` parsers are modelled for the IPv4 dotted-quad
forms exercised here. -/

/-- Parse one IPv4 octet as `std::net` does: 1–3 ASCII digits, no leading
zero (except the single digit `0`), value at most 255. -/
def parseIpv4Octet (s : List Nat) : Option Nat :=
  if s ≠ [] ∧ s.length ≤ 3 ∧ s.all isDigitByte ∧
      (s.length = 1 ∨ s.headD 0 ≠ 48) then
    let v := s.foldl (fun acc c => acc * 10 + (c - 48)) 0
    if v ≤ 255 then some v else none
  else none

/-- Parse a dotted-quad IPv4 address into its 32-bit value (models
`std::net::IpAddr::from_str` restricted to its IPv4 form). -/
def parseIpv4 (s : List Nat) : Option Nat :=
  match splitOnByte 46 s with
  | [a, b, c, d] =>
    match parseIpv4Octet a, parseIpv4Octet b, parseIpv4Octet c,
        parseIpv4Octet d with
    | some o1, some o2, some o3, some o4 =>
      some (((o1 * 256 + o2) * 256 + o3) * 256 + o4)
    | _, _, _, _ => none
  | _ => none

/-- Parse a `u8` (for the CIDR prefix length), as `u8::from_str`. -/
def parseU8 (s : List Nat) : Option Nat :=
  let t := stripPlus s
  if t ≠ [] ∧ t.all isDigitByte then
    let v := t.foldl (fun acc c => acc * 10 + (c - 48)) 0
    if v < 256 then some v else none
  else none

/-- Parse `addr/len` as `ipnet::IpNet::from_str` does for its IPv4 form:
address, `'/'`, prefix length at most 32. -/
def parseIpv4Net (s : List Nat) : Option (Nat × Nat) :=
  match splitOnByte 47 s with
  | [addrS, lenS] =>
    match parseIpv4 addrS, parseU8 lenS with
    | some a, some n => if n ≤ 32 then some (a, n) else none
    | _, _ => none
  | _ => none

/-- `Ipv4Net::contains`: the address agrees with the network address on
the first `len` bits. -/
def ipv4NetContains (net : Nat × Nat) (addr : Nat) : Bool :=
  addr / 2 ^ (32 - net.2) = net.1 / 2 ^ (32 - net.2)

/-- `config.rs::UserEntry`. -/
structure UserEntry where
  secret : List Nat
  whitelist : List (List Nat)
  logging : Bool
deriving DecidableEq

/-- The users map (`HashMap<String, UserEntry>`) as an association list. -/
def lookupUser (users : List (List Nat × UserEntry)) (username : List Nat) :
    Option UserEntry :=
  (users.find? (fun p => p.1 == username)).map (fun p => p.2)

namespace UsersConfig

/-- `UsersConfig::is_ip_whitelisted`: unknown user refused; empty
whitelist allows all; otherwise any entry that equals the IP literally, or
parses as a CIDR network containing the (parsed) IP, authorizes it. -/
def is_ip_whitelisted (users : List (List Nat × UserEntry))
    (username ip : List Nat) : Bool :=
  match lookupUser users username with
  | none => false
  | some user =>
    if user.whitelist.isEmpty then true
    else
      user.whitelist.any fun entry =>
        entry == ip ||
          (match parseIpv4Net entry, parseIpv4 ip with
           | some net, some addr => ipv4NetContains net addr
           | _, _ => false)

end UsersConfig

/-- The whitelist check the `server.rs` handlers actually perform after a
token verifies: `user_whitelist.map(|w| w.is_empty() ||
w.contains(&client_ip)).unwrap_or(true)` — a literal string membership
test, no CIDR parsing. -/
def serverWhitelistCheck (userWhitelist : Option (List (List Nat)))
    (clientIp : List Nat) : Bool :=
  match userWhitelist with
  | none => true
  | some w => if w.isEmpty then true else w.contains clientIp

/-- The users table of the C5 scenario: `bob` with whitelist
`["10.0.0.0/8"]`. -/
def bobUsers : List (List Nat × UserEntry) :=
  [(strBytes ("bob"), ⟨strBytes ("secret"), [strBytes ("10.0.0.0/8")], true⟩)]

/-- C5 evaluation: for user `bob` with whitelist `["10.0.0.0/8"]` and
source IP `10.1.2.3` (inside the CIDR block), the handlers' literal-string
check refuses the connection (so the server answers 535 and never reaches
`Authenticated`), while `UsersConfig::is_ip_whitelisted` — the authorization
the claim and the spec describe — authorizes it. The handlers never
perform the CIDR containment test. -/
theorem C5_server_ignores_cidr_whitelist :
    serverWhitelistCheck (some [strBytes ("10.0.0.0/8")])
      (strBytes ("10.1.2.3")) = false ∧
    UsersConfig.is_ip_whitelisted bobUsers (strBytes ("bob"))
      (strBytes ("10.1.2.3")) = true ∧
    serverWhitelistCheck (some [strBytes ("10.1.2.3")])
      (strBytes ("10.1.2.3")) = true := by
  refine ⟨by decide, by decide, by decide⟩
